import Mathlib

/-!
Shallow embedding of the minimum-spaced periodic event scheduler
(`pyservice/scheduling.py` with the helper `first_index` from
`pyservice/util.py`), together with theorems settling the frozen claims
about its specification.

Modelling conventions:
* Times and delays are integers.  The Python code reads the monotonic
  clock several times inside `enter`; the embedding idealises this to a
  single reading `now` of the clock, so all offsets are taken from the
  same instant.
* The `sched.scheduler` queue is modelled as a list of events sorted by
  fire time (with priority as tie break and new events placed after
  existing equal keys), which is the order in which `sched` exposes
  `self.queue`.
* Python exceptions are modelled by `Except PyErr`.  In particular the
  recursive branch of `_push_event` reads the unbound name `minDelay`
  (the code says `minDelay` where only `self.minDelay` exists), which
  raises `NameError` in Python; the embedding returns `PyErr.nameError`
  there.
* The closure returned by `PeriodicScheduler.periodic` captures the
  original `delay` argument; the embedding stores this captured period
  in the `period` field of the scheduled event.
-/

/-- Decidable equality for `Except`, so that concrete runs of the
embedded functions can be checked by `decide`. -/
instance {ε α : Type} [DecidableEq ε] [DecidableEq α] : DecidableEq (Except ε α) := fun
  | .ok a, .ok b =>
      if h : a = b then .isTrue (by rw [h]) else .isFalse (by intro hh; cases hh; exact h rfl)
  | .error a, .error b =>
      if h : a = b then .isTrue (by rw [h]) else .isFalse (by intro hh; cases hh; exact h rfl)
  | .ok _, .error _ => .isFalse (by intro hh; cases hh)
  | .error _, .ok _ => .isFalse (by intro hh; cases hh)

/-- Python runtime errors that the embedded code can raise:
`indexError` models an out-of-range list subscript (`IndexError`),
`nameError` models reading an unbound name (`NameError`), and
`actionRaised` models an arbitrary exception escaping a user action. -/
inductive PyErr where
  | indexError
  | nameError
  | actionRaised
deriving DecidableEq, Repr

/-- A queued event of the scheduler: absolute fire time, priority, and
the period captured by the periodic wrapper that the event will run
(`periodic` in `scheduling.py` closes over its `delay` argument). -/
structure Event where
  time : Int
  priority : Int
  period : Int
deriving DecidableEq, Repr

/-- State of a `PeriodicScheduler`: the configured `minDelay`, the
current clock reading, and the queue of pending events sorted by
fire time. -/
structure SchedState where
  minDelay : Int
  now : Int
  queue : List Event
deriving DecidableEq, Repr

/-- Ordering used by the `sched` event heap: by fire time, then by
priority.  `evLE a b` holds when `a` sorts no later than `b`; a newly
pushed event lands after existing events with an equal key. -/
def evLE (a b : Event) : Prop :=
  a.time < b.time ∨ (a.time = b.time ∧ a.priority ≤ b.priority)

instance (a b : Event) : Decidable (evLE a b) :=
  inferInstanceAs (Decidable (_ ∨ _))

/-- Insert an event into the sorted queue, after all events that sort
no later than it (models `heapq.heappush` followed by reading the
sorted `queue` property of `sched.scheduler`). -/
def insertEvent (ev : Event) : List Event → List Event
  | [] => [ev]
  | e :: es => if evLE e ev then e :: insertEvent ev es else ev :: e :: es

/-- Scan of `util.first_index` specialised to the predicate used by
`PeriodicScheduler.enter`:
`cond(l, i) = (l[i+1] >= minDelay + delay and l[i+1] >= 2*minDelay + l[i])`.
The loop walks the suffix of `l` starting at index `i`; the current
element is the head of the suffix.  Evaluating the condition at the
last index of `l` subscripts `l[i+1]` out of range, an `IndexError`.
The empty-suffix branch corresponds to Python running the loop to
completion and returning the final index `len(l) - 1`; for this
condition that branch is unreachable on the nonempty lists `enter`
builds, because the condition always raises first. -/
def scanSlotAux (m d : Int) (l : List Int) : Nat → List Int → Except PyErr Nat
  | _, [] => .ok (l.length - 1)
  | _, [_] => .error .indexError
  | i, a :: b :: rest =>
      if m + d ≤ b ∧ 2 * m + a ≤ b then .ok i
      else scanSlotAux m d l (i + 1) (b :: rest)

/-- The call `util.first_index(delayList, cond)` made by `enter`. -/
def first_index (m d : Int) (l : List Int) : Except PyErr Nat :=
  scanSlotAux m d l 0 l

/-- The `delayList` built by `enter` from the offsets-from-now `os` of
the queued events: a leading virtual `0`, the offsets themselves, and
the appended fictional offset `delayList[-1] + 2*delay + 2*minDelay`. -/
def delayListOf (m d : Int) (os : List Int) : List Int :=
  let l := 0 :: os
  l ++ [l.getLastD 0 + 2 * d + 2 * m]

/-- Slot search and final delay computation of `enter`: find the first
feasible slot in the `delayList` and return
`max(delayList[slot] + minDelay, delay)`, the chosen fire offset from
now.  Errors of the scan propagate. -/
def fireOffset (m d : Int) (os : List Int) : Except PyErr Int :=
  match first_index m d (delayListOf m d os) with
  | .error e => .error e
  | .ok slot => .ok (max ((delayListOf m d os).getD slot 0 + m) d)

/-- The `lastExecution` adjustment of `enter`: when given, the delay
becomes `delay + lastExecution - now`, clamped below at `0`. -/
def effDelay (delay : Int) (lastExecution : Option Int) (now : Int) : Int :=
  match lastExecution with
  | none => delay
  | some le =>
      let d := delay + le - now
      if d < 0 then 0 else d

/-- `PeriodicScheduler.enter`: build the periodic wrapper (which
captures the original, unadjusted `delay` as its period), apply the
`lastExecution` adjustment, compute the fire offset by slot search,
and schedule the wrapper.  Returns the new state together with the
newly inserted event; scan errors propagate and leave the queue
unchanged. -/
def enter (st : SchedState) (delay priority : Int) (lastExecution : Option Int) :
    Except PyErr (SchedState × Event) :=
  match fireOffset st.minDelay (effDelay delay lastExecution st.now)
      (st.queue.map (fun e => e.time - st.now)) with
  | .error e => .error e
  | .ok off =>
      .ok ({ st with queue := insertEvent ⟨st.now + off, priority, delay⟩ st.queue },
           ⟨st.now + off, priority, delay⟩)

/-- `PeriodicScheduler._delay_event`: cancel the event and re-insert it
at `time + delay`, keeping its remaining fields. -/
def delayEvent (st : SchedState) (ev : Event) (delay : Int) : SchedState :=
  { st with queue := insertEvent { ev with time := ev.time + delay } (st.queue.erase ev) }

/-- `PeriodicScheduler._push_event`.  The base case `ind == len(queue)-1`
delays the last event.  The recursive branch of the Python source
evaluates `minDelay - (self.queue[ind+1] - (self.queue[ind] + delay))`,
whose first subterm is the unbound name `minDelay` (only the attribute
`self.minDelay` exists), so the branch raises `NameError` before doing
anything else; it is therefore modelled as `PyErr.nameError`. -/
def pushEvent (st : SchedState) (ind : Nat) (delay : Int) : Except PyErr SchedState :=
  if (ind : Int) = (st.queue.length : Int) - 1 then
    match st.queue.get? ind with
    | some ev => .ok (delayEvent st ev delay)
    | none => .error .indexError
  else
    .error .nameError

/-- Outcome of running a user action: it either returns normally or
raises an exception. -/
inductive ActionResult where
  | ok
  | raises
deriving DecidableEq, Repr

/-- The closure `periodic_action` returned by
`PeriodicScheduler.periodic`: run the user action — an exception it
raises propagates immediately, skipping everything that follows — then
build the next wrapper and re-enter it with the captured period and no
`lastExecution`. -/
def runPeriodic (st : SchedState) (period priority : Int) (r : ActionResult) :
    Except PyErr SchedState :=
  match r with
  | .raises => .error .actionRaised
  | .ok =>
      match enter st period priority none with
      | .error e => .error e
      | .ok (st', _) => .ok st'

/-- The slot condition of `enter` at index `i` of the delay list `l`,
read off the list with default `0` (all accesses are in bounds wherever
the predicate is used): `l[i+1] >= minDelay + delay` and
`l[i+1] >= 2*minDelay + l[i]`. -/
def slotPredD (m d : Int) (l : List Int) (i : Nat) : Prop :=
  m + d ≤ l.getD (i + 1) 0 ∧ 2 * m + l.getD i 0 ≤ l.getD (i + 1) 0

instance (m d : Int) (l : List Int) (i : Nat) : Decidable (slotPredD m d l i) :=
  inferInstanceAs (Decidable (_ ∧ _))

/-- Index `i` is the first index of the delay list `l` whose adjacent
pair `(l[i], l[i+1])` satisfies the slot condition. -/
def isFirstSlot (m d : Int) (l : List Int) (i : Nat) : Prop :=
  i + 1 < l.length ∧ slotPredD m d l i ∧ ∀ j < i, ¬ slotPredD m d l j

instance (m d : Int) (l : List Int) (i : Nat) : Decidable (isFirstSlot m d l i) :=
  inferInstanceAs (Decidable (_ ∧ _ ∧ _))

/-! ### Correctness of the slot scan -/

/-- Decompose `l.drop i` into its first two elements when both exist. -/
lemma drop_two (l : List Int) (i : Nat) (h : i + 1 < l.length) :
    l.drop i = l.getD i 0 :: l.getD (i + 1) 0 :: l.drop (i + 2) := by
  have h0 : i < l.length := by omega
  rw [List.drop_eq_getElem_cons h0, List.drop_eq_getElem_cons h,
      List.getD_eq_getElem l 0 h0, List.getD_eq_getElem l 0 h]

/-- The scan, started at index `i`, returns the least index at or after
`i` whose adjacent pair satisfies the slot condition, provided such an
index exists strictly before the last position of the list. -/
lemma scanSlotAux_spec (m d : Int) (l : List Int) (j : Nat)
    (hjb : j + 1 < l.length) (hpred : slotPredD m d l j) :
    ∀ n i, j - i ≤ n → i ≤ j →
      (∀ t, i ≤ t → t < j → ¬ slotPredD m d l t) →
      scanSlotAux m d l i (l.drop i) = .ok j := by
  intro n
  induction n with
  | zero =>
      intro i hni hij _
      have hij' : i = j := by omega
      subst hij'
      rw [drop_two l i hjb]
      simp only [scanSlotAux]
      rw [if_pos ⟨hpred.1, hpred.2⟩]
  | succ n ih =>
      intro i hni hij hmin
      by_cases hij' : i = j
      · subst hij'
        rw [drop_two l i hjb]
        simp only [scanSlotAux]
        rw [if_pos ⟨hpred.1, hpred.2⟩]
      · have hilt : i < j := by omega
        rw [drop_two l i (by omega)]
        simp only [scanSlotAux]
        rw [if_neg (by exact hmin i le_rfl hilt)]
        have hd1 : l.getD (i + 1) 0 :: l.drop (i + 2) = l.drop (i + 1) := by
          rw [List.drop_eq_getElem_cons (show i + 1 < l.length by omega),
              List.getD_eq_getElem l 0 (show i + 1 < l.length by omega)]
        rw [hd1]
        exact ih (i + 1) (by omega) (by omega) (fun t ht1 ht2 => hmin t (by omega) ht2)

/-- `first_index` on the delay list returns the first feasible slot. -/
lemma first_index_eq_ok (m d : Int) (l : List Int) (j : Nat)
    (hjb : j + 1 < l.length) (hpred : slotPredD m d l j)
    (hmin : ∀ t, t < j → ¬ slotPredD m d l t) :
    first_index m d l = .ok j := by
  have h := scanSlotAux_spec m d l j hjb hpred j 0 (by omega) (by omega)
    (fun t _ ht => hmin t ht)
  rw [List.drop_zero] at h
  exact h

/-- Unfold `fireOffset` along a successful scan. -/
lemma fireOffset_eq_of_first_index (m d : Int) (os : List Int) (j : Nat)
    (h : first_index m d (delayListOf m d os) = .ok j) :
    fireOffset m d os = .ok (max ((delayListOf m d os).getD j 0 + m) d) := by
  unfold fireOffset
  rw [h]

/-! ### Structure of the delay list -/

lemma delayListOf_length (m d : Int) (os : List Int) :
    (delayListOf m d os).length = os.length + 2 := by
  simp [delayListOf]

lemma delayListOf_getD_succ (m d : Int) (os : List Int) (k : Nat) (hk : k < os.length) :
    (delayListOf m d os).getD (k + 1) 0 = os.getD k 0 := by
  unfold delayListOf
  rw [List.getD_append _ _ _ _ (by simpa using Nat.succ_lt_succ hk)]
  simp [List.getD_cons_succ]

lemma delayListOf_getD_top (m d : Int) (os : List Int) :
    (delayListOf m d os).getD (os.length + 1) 0 =
      (0 :: os).getLastD 0 + 2 * d + 2 * m := by
  unfold delayListOf
  rw [List.getD_append_right _ _ _ _ (by simp)]
  simp

lemma getD_last_cons (x : Int) (xs : List Int) :
    (x :: xs).getD xs.length 0 = (x :: xs).getLastD 0 := by
  induction xs generalizing x with
  | nil => rfl
  | cons y ys ih =>
      simp only [List.length_cons, List.getD_cons_succ]
      rw [ih y]
      simp [List.getLastD_cons]

lemma delayListOf_getD_lastReal (m d : Int) (os : List Int) :
    (delayListOf m d os).getD os.length 0 = (0 :: os).getLastD 0 := by
  unfold delayListOf
  rw [List.getD_append _ _ _ _ (by simp)]
  exact getD_last_cons 0 os

lemma getLastD_mem_cons (x : Int) (xs : List Int) : (x :: xs).getLastD 0 ∈ x :: xs := by
  simp only [List.getLastD_eq_getLast?,
    List.getLast?_eq_getLast_of_ne_nil (List.cons_ne_nil x xs), Option.getD_some]
  exact List.getLast_mem _

lemma getLast_eq_getLastD (x : Int) (xs : List Int) (h : x :: xs ≠ []) :
    (x :: xs).getLast h = (x :: xs).getLastD 0 := by
  simp only [List.getLastD_eq_getLast?,
    List.getLast?_eq_getLast_of_ne_nil (List.cons_ne_nil x xs), Option.getD_some]

/-- All entries of the delay list are nonnegative when the queue
offsets are and the delays are. -/
lemma delayListOf_nonneg (m d : Int) (os : List Int) (hm : 0 ≤ m) (hd : 0 ≤ d)
    (hnn : ∀ o ∈ os, 0 ≤ o) :
    ∀ a ∈ delayListOf m d os, 0 ≤ a := by
  have h0 : 0 ≤ (0 :: os).getLastD 0 := by
    rcases List.mem_cons.mp (getLastD_mem_cons 0 os) with h | h
    · rw [h]
    · exact hnn _ h
  intro a ha
  unfold delayListOf at ha
  rcases List.mem_append.mp ha with ha | ha
  · rcases List.mem_cons.mp ha with rfl | ha
    · exact le_refl 0
    · exact hnn _ ha
  · simp at ha
    subst ha
    simp only [List.getLastD_eq_getLast?] at h0
    linarith

/-- The delay list is sorted when the queue offsets are sorted and
nonnegative and the delays are nonnegative. -/
lemma delayListOf_sorted (m d : Int) (os : List Int) (hm : 0 ≤ m) (hd : 0 ≤ d)
    (hnn : ∀ o ∈ os, 0 ≤ o) (hs : List.Chain' (· ≤ ·) os) :
    List.Pairwise (· ≤ ·) (delayListOf m d os) := by
  have hchain0 : List.Chain' (· ≤ ·) (0 :: os) := by
    rw [List.chain'_cons']
    exact ⟨fun y hy => hnn y (List.mem_of_mem_head? hy), hs⟩
  have hchain : List.Chain' (· ≤ ·) (delayListOf m d os) := by
    unfold delayListOf
    rw [List.chain'_append]
    refine ⟨hchain0, List.chain'_singleton _, ?_⟩
    intro x hx y hy
    simp only [List.head?_cons, Option.mem_def, Option.some.injEq] at hy
    subst hy
    rcases List.mem_getLast?_eq_getLast hx with ⟨hne, hx'⟩
    rw [hx', getLast_eq_getLastD 0 os hne]
    linarith
  exact List.chain'_iff_pairwise.mp hchain

lemma pairwise_getD_mono (l : List Int) (hp : List.Pairwise (· ≤ ·) l)
    {i j : Nat} (hij : i ≤ j) (hj : j < l.length) :
    l.getD i 0 ≤ l.getD j 0 := by
  rcases Nat.eq_or_lt_of_le hij with rfl | hlt
  · exact le_refl _
  · rw [List.getD_eq_getElem l 0 (by omega), List.getD_eq_getElem l 0 hj]
    exact List.pairwise_iff_getElem.mp hp i j (by omega) hj hlt

/-- The fictional appended offset always yields a feasible slot at the
last adjacent pair of the delay list. -/
lemma sentinelPred (m d : Int) (os : List Int) (hm : 0 ≤ m) (hd : 0 ≤ d)
    (hnn : ∀ o ∈ os, 0 ≤ o) :
    slotPredD m d (delayListOf m d os) os.length := by
  have h0 : 0 ≤ (0 :: os).getLastD 0 := by
    rcases List.mem_cons.mp (getLastD_mem_cons 0 os) with h | h
    · rw [h]
    · exact hnn _ h
  constructor
  · rw [delayListOf_getD_top]; linarith
  · rw [delayListOf_getD_top, delayListOf_getD_lastReal]; linarith

/-- Under nonnegative delays and a sorted nonnegative offset list, the
slot search succeeds, and the chosen fire offset is at least
`minDelay`, at least `delay`, and at least `minDelay` away, on the
correct side, from every queued offset. -/
lemma fireOffset_sep (m d : Int) (os : List Int) (hm : 0 ≤ m) (hd : 0 ≤ d)
    (hnn : ∀ o ∈ os, 0 ≤ o) (hs : List.Chain' (· ≤ ·) os) :
    ∃ t, fireOffset m d os = .ok t ∧ m ≤ t ∧ d ≤ t ∧
      ∀ k, k < os.length → (os.getD k 0 + m ≤ t ∨ t + m ≤ os.getD k 0) := by
  have hex : ∃ j, slotPredD m d (delayListOf m d os) j :=
    ⟨os.length, sentinelPred m d os hm hd hnn⟩
  obtain ⟨j₀, hpred, hminfind⟩ :
      ∃ j, slotPredD m d (delayListOf m d os) j ∧
        ∀ t, t < j → ¬ slotPredD m d (delayListOf m d os) t :=
    ⟨Nat.find hex, Nat.find_spec hex, fun t ht => Nat.find_min hex ht⟩
  have hj₀n : j₀ ≤ os.length := by
    by_contra hgt
    exact hminfind os.length (by omega) (sentinelPred m d os hm hd hnn)
  have hlen : (delayListOf m d os).length = os.length + 2 := delayListOf_length m d os
  have hjb : j₀ + 1 < (delayListOf m d os).length := by omega
  have hfi : first_index m d (delayListOf m d os) = .ok j₀ :=
    first_index_eq_ok m d (delayListOf m d os) j₀ hjb hpred hminfind
  have hfo : fireOffset m d os =
      .ok (max ((delayListOf m d os).getD j₀ 0 + m) d) :=
    fireOffset_eq_of_first_index m d os j₀ hfi
  have hsorted : List.Pairwise (· ≤ ·) (delayListOf m d os) :=
    delayListOf_sorted m d os hm hd hnn hs
  have hj₀nn : 0 ≤ (delayListOf m d os).getD j₀ 0 := by
    apply delayListOf_nonneg m d os hm hd hnn
    rw [List.getD_eq_getElem (delayListOf m d os) 0 (by omega)]
    exact List.getElem_mem _
  refine ⟨max ((delayListOf m d os).getD j₀ 0 + m) d, hfo, ?_, le_max_right _ _, ?_⟩
  · have := le_max_left ((delayListOf m d os).getD j₀ 0 + m) d
    linarith
  · intro k hk
    have hos : (delayListOf m d os).getD (k + 1) 0 = os.getD k 0 :=
      delayListOf_getD_succ m d os k hk
    by_cases hkj : k + 1 ≤ j₀
    · left
      have hmono := pairwise_getD_mono (delayListOf m d os) hsorted hkj (by omega)
      rw [hos] at hmono
      have h2 := le_max_left ((delayListOf m d os).getD j₀ 0 + m) d
      linarith
    · right
      have hmono := pairwise_getD_mono (delayListOf m d os) hsorted
        (show j₀ + 1 ≤ k + 1 by omega) (by omega)
      rw [hos] at hmono
      have hmax : max ((delayListOf m d os).getD j₀ 0 + m) d + m ≤
          (delayListOf m d os).getD (j₀ + 1) 0 := by
        have h1 := hpred.1
        have h2 := hpred.2
        have h3 : max ((delayListOf m d os).getD j₀ 0 + m) d ≤
            (delayListOf m d os).getD (j₀ + 1) 0 - m := by
          apply max_le <;> linarith
        linarith
      linarith

/-! ### Queue insertion -/

/-- `insertEvent` splits the sorted queue into a prefix of events that
sort no later than the new event and the remaining suffix, and places
the new event in between, leaving existing events and their relative
order untouched. -/
lemma insertEvent_split (ev : Event) (q : List Event)
    (hsort : List.Pairwise (fun a b => a.time ≤ b.time) q) :
    ∃ pre post, q = pre ++ post ∧ insertEvent ev q = pre ++ ev :: post ∧
      (∀ e ∈ pre, e.time ≤ ev.time) ∧ (∀ e ∈ post, ev.time ≤ e.time) := by
  induction q with
  | nil => exact ⟨[], [], rfl, rfl, by simp, by simp⟩
  | cons e es ih =>
      rcases List.pairwise_cons.mp hsort with ⟨he, hes⟩
      by_cases hle : evLE e ev
      · rcases ih hes with ⟨pre, post, h1, h2, h3, h4⟩
        refine ⟨e :: pre, post, by rw [List.cons_append, ← h1], ?_, ?_, h4⟩
        · simp only [insertEvent]
          rw [if_pos hle, h2, List.cons_append]
        · intro x hx
          rcases List.mem_cons.mp hx with rfl | hx
          · rcases hle with hlt | ⟨heq, _⟩
            · exact le_of_lt hlt
            · exact le_of_eq heq
          · exact h3 x hx
      · refine ⟨[], e :: es, rfl, ?_, by simp, ?_⟩
        · simp only [insertEvent]
          rw [if_neg hle, List.nil_append]
        · have hev_e : ev.time ≤ e.time := by
            unfold evLE at hle
            push_neg at hle
            exact hle.1
          intro x hx
          rcases List.mem_cons.mp hx with rfl | hx
          · exact hev_e
          · exact le_trans hev_e (he x hx)

/-- The new event is a member of the queue it was inserted into. -/
lemma insertEvent_mem (ev : Event) (q : List Event) : ev ∈ insertEvent ev q := by
  induction q with
  | nil => simp [insertEvent]
  | cons e es ih =>
      simp only [insertEvent]
      by_cases hle : evLE e ev
      · rw [if_pos hle]
        exact List.mem_cons_of_mem _ ih
      · rw [if_neg hle]
        exact List.mem_cons_self _ _

/-- Re-assemble the minimum-gap chain after inserting an event between
a prefix and suffix that keep their distance from it. -/
lemma chain_insert (m : Int) (ev : Event) (pre post : List Event)
    (hchain : List.Chain' (fun a b => a.time + m ≤ b.time) (pre ++ post))
    (hpre : ∀ e ∈ pre, e.time + m ≤ ev.time)
    (hpost : ∀ e ∈ post, ev.time + m ≤ e.time) :
    List.Chain' (fun a b => a.time + m ≤ b.time) (pre ++ ev :: post) := by
  rw [List.chain'_append] at hchain ⊢
  obtain ⟨h1, h2, _⟩ := hchain
  refine ⟨h1, ?_, ?_⟩
  · rw [List.chain'_cons']
    exact ⟨fun y hy => hpost y (List.mem_of_mem_head? hy), h2⟩
  · intro x hx y hy
    simp only [List.head?_cons, Option.mem_def, Option.some.injEq] at hy
    subst hy
    rcases List.mem_getLast?_eq_getLast hx with ⟨hne, hx'⟩
    rw [hx']
    exact hpre _ (List.getLast_mem hne)

/-! ### Unfolding `enter` -/

/-- Unfold `enter` along a successful slot search. -/
lemma enter_eq_ok (st : SchedState) (delay p t : Int) (lastEx : Option Int)
    (h : fireOffset st.minDelay (effDelay delay lastEx st.now)
        (st.queue.map (fun e => e.time - st.now)) = .ok t) :
    enter st delay p lastEx =
      .ok ({ st with queue := insertEvent ⟨st.now + t, p, delay⟩ st.queue },
           ⟨st.now + t, p, delay⟩) := by
  unfold enter
  rw [h]

/-- Invert a successful `enter`: the inserted event carries the
original `delay` as its period, the requested priority, and a fire
offset produced by the slot search on the adjusted delay. -/
lemma enter_ok_inv (st : SchedState) (delay p : Int) (lastEx : Option Int)
    (st' : SchedState) (ev : Event) (h : enter st delay p lastEx = .ok (st', ev)) :
    ev.period = delay ∧ ev.priority = p ∧
      st'.queue = insertEvent ev st.queue ∧
      st'.minDelay = st.minDelay ∧ st'.now = st.now ∧
      fireOffset st.minDelay (effDelay delay lastEx st.now)
        (st.queue.map (fun e => e.time - st.now)) = .ok (ev.time - st.now) := by
  unfold enter at h
  cases hfo : fireOffset st.minDelay (effDelay delay lastEx st.now)
      (st.queue.map (fun e => e.time - st.now)) with
  | error e =>
      rw [hfo] at h
      cases h
  | ok off =>
      rw [hfo] at h
      simp only [Except.ok.injEq, Prod.mk.injEq] at h
      obtain ⟨hst, hev⟩ := h
      subst hst
      subst hev
      refine ⟨rfl, rfl, rfl, rfl, rfl, ?_⟩
      show Except.ok off = Except.ok (st.now + off - st.now)
      rw [add_sub_cancel_left]

/-! ### Claim theorems -/

/-- C1: for every call to `enter` with requested relative delay
`d ≥ 0` on a queue whose events have sorted offsets-from-now
`o_1 ≤ ... ≤ o_n`, the scheduled fire offset equals
`max(offset[i] + minDelay, d)`, where `i` is the first index of the
delay list `[0, o_1, ..., o_n, o_n + 2*d + 2*minDelay]` such that
`offset[i+1] ≥ minDelay + d` and `offset[i+1] ≥ 2*minDelay + offset[i]`.
The witness checks the claim's instance: `minDelay = 5`, an existing
event at offset `0`, `d = 1` is scheduled at offset `5`, not `1`. -/
theorem enter_slot_formula (m d : Int) (os : List Int) (i : Nat)
    (_hd : 0 ≤ d) (_hsorted : List.Chain' (· ≤ ·) os)
    (hfirst : isFirstSlot m d (delayListOf m d os) i) :
    fireOffset m d os = .ok (max ((delayListOf m d os).getD i 0 + m) d) := by
  obtain ⟨hb, hpred, hmin⟩ := hfirst
  exact fireOffset_eq_of_first_index m d os i
    (first_index_eq_ok m d (delayListOf m d os) i hb hpred hmin)

/-- Witness for C1, at the claim's own scenario: `minDelay = 5`, one
queued event at offset `0`, requested delay `1`; the first feasible
slot is at index `1` and the event is scheduled at offset `5`. -/
theorem enter_slot_formula_witness :
    (0:Int) ≤ 1 ∧ List.Chain' (· ≤ ·) [(0:Int)] ∧
      isFirstSlot 5 1 (delayListOf 5 1 [0]) 1 ∧
      fireOffset 5 1 [0] = .ok (max ((delayListOf 5 1 [0]).getD 1 0 + 5) 1) ∧
      fireOffset 5 1 [0] = .ok 5 :=
  ⟨by decide, List.chain'_singleton 0, by decide,
   enter_slot_formula 5 1 [0] 1 (by decide) (List.chain'_singleton 0) (by decide), by decide⟩

/-- C2: insertion never violates the spacing invariant.  For every
queue state whose fire times are all at least `now` and whose
consecutive events are at least `minDelay` apart, and every `enter`
call with `delay ≥ 0` and `minDelay ≥ 0`, the insertion succeeds, the
post-insertion queue again keeps consecutive events at least
`minDelay` apart, and the new event fires at least `minDelay` after
now. -/
theorem enter_preserves_spacing (st : SchedState) (d p : Int)
    (hm : 0 ≤ st.minDelay) (hd : 0 ≤ d)
    (hnn : ∀ e ∈ st.queue, st.now ≤ e.time)
    (hgap : List.Chain' (fun a b => a.time + st.minDelay ≤ b.time) st.queue) :
    ∃ st' ev, enter st d p none = .ok (st', ev) ∧
      List.Chain' (fun a b => a.time + st.minDelay ≤ b.time) st'.queue ∧
      st.now + st.minDelay ≤ ev.time := by
  have hnn' : ∀ o ∈ st.queue.map (fun e => e.time - st.now), 0 ≤ o := by
    intro o ho
    rcases List.mem_map.mp ho with ⟨e, he, rfl⟩
    have := hnn e he
    linarith
  have hchain_os : List.Chain' (· ≤ ·) (st.queue.map (fun e => e.time - st.now)) := by
    rw [List.chain'_map]
    exact hgap.imp (fun a b hab => sub_le_sub_right (by linarith) st.now)
  obtain ⟨t, hfo, hmt, hdt, hsep⟩ :=
    fireOffset_sep st.minDelay d _ hm hd hnn' hchain_os
  have hrun := enter_eq_ok st d p t none hfo
  haveI : IsTrans Event (fun a b => a.time + st.minDelay ≤ b.time) :=
    ⟨fun a b c hab hbc => by linarith⟩
  have hpwgap : List.Pairwise (fun a b => a.time + st.minDelay ≤ b.time) st.queue :=
    List.chain'_iff_pairwise.mp hgap
  have hpw : List.Pairwise (fun a b : Event => a.time ≤ b.time) st.queue :=
    hpwgap.imp (fun hab => by linarith)
  obtain ⟨pre, post, hq, hins, hpre, hpost⟩ :=
    insertEvent_split ⟨st.now + t, p, d⟩ st.queue hpw
  have hsep_ev : ∀ e ∈ st.queue,
      e.time + st.minDelay ≤ st.now + t ∨ st.now + t + st.minDelay ≤ e.time := by
    intro e he
    rcases List.mem_iff_getElem.mp he with ⟨k, hk, hke⟩
    have hko : (st.queue.map (fun e => e.time - st.now)).getD k 0 = e.time - st.now := by
      rw [List.getD_eq_getElem _ 0 (by simpa using hk)]
      simp [hke]
    have hk' : k < (st.queue.map (fun e => e.time - st.now)).length := by
      simpa using hk
    have := hsep k hk'
    rw [hko] at this
    rcases this with h | h
    · left; linarith
    · right; linarith
  have hpre' : ∀ e ∈ pre, e.time + st.minDelay ≤ (⟨st.now + t, p, d⟩ : Event).time := by
    intro e he
    have h1 : e.time ≤ st.now + t := hpre e he
    have h2 := hsep_ev e (by rw [hq]; exact List.mem_append_left _ he)
    show e.time + st.minDelay ≤ st.now + t
    rcases h2 with h | h
    · exact h
    · linarith
  have hpost' : ∀ e ∈ post, (⟨st.now + t, p, d⟩ : Event).time + st.minDelay ≤ e.time := by
    intro e he
    have h1 : st.now + t ≤ e.time := hpost e he
    have h2 := hsep_ev e (by rw [hq]; exact List.mem_append_right _ he)
    show st.now + t + st.minDelay ≤ e.time
    rcases h2 with h | h
    · linarith
    · exact h
  refine ⟨_, _, hrun, ?_, ?_⟩
  · show List.Chain' _ (insertEvent ⟨st.now + t, p, d⟩ st.queue)
    rw [hins]
    exact chain_insert st.minDelay _ pre post (by rw [← hq]; exact hgap) hpre' hpost'
  · show st.now + st.minDelay ≤ st.now + t
    linarith

/-- Witness for C2: `minDelay = 5`, queue with events at times `0` and
`10`, `now = 0`, request with delay `1`; insertion succeeds and the
spacing invariant still holds. -/
theorem enter_preserves_spacing_witness :
    ∃ st' ev, enter ⟨5, 0, [⟨0, 0, 10⟩, ⟨10, 0, 10⟩]⟩ 1 0 none = .ok (st', ev) ∧
      List.Chain' (fun a b => a.time + (5:Int) ≤ b.time) st'.queue ∧
      (0:Int) + 5 ≤ ev.time :=
  enter_preserves_spacing ⟨5, 0, [⟨0, 0, 10⟩, ⟨10, 0, 10⟩]⟩ 1 0
    (by decide) (by decide) (by decide)
    (List.chain'_cons.mpr ⟨by decide, List.chain'_singleton _⟩)

/-- C9: slot finding never reorders the queue.  For every `enter` call
with `delay ≥ 0` and `minDelay ≥ 0` on a sorted queue with fire times
at least `now`, the queue splits into a prefix and suffix around the
new event: existing events keep their fire times and relative order,
every event of the prefix fires no later than the new event, and every
event of the suffix fires no earlier. -/
theorem enter_no_reorder (st : SchedState) (d p : Int)
    (hm : 0 ≤ st.minDelay) (hd : 0 ≤ d)
    (hnn : ∀ e ∈ st.queue, st.now ≤ e.time)
    (hsort : List.Pairwise (fun a b => a.time ≤ b.time) st.queue) :
    ∃ st' ev pre post, enter st d p none = .ok (st', ev) ∧
      st.queue = pre ++ post ∧ st'.queue = pre ++ ev :: post ∧
      (∀ e ∈ pre, e.time ≤ ev.time) ∧ (∀ e ∈ post, ev.time ≤ e.time) := by
  have hnn' : ∀ o ∈ st.queue.map (fun e => e.time - st.now), 0 ≤ o := by
    intro o ho
    rcases List.mem_map.mp ho with ⟨e, he, rfl⟩
    have := hnn e he
    linarith
  have hchain_os : List.Chain' (· ≤ ·) (st.queue.map (fun e => e.time - st.now)) := by
    rw [List.chain'_map]
    exact hsort.chain'.imp (fun a b hab => sub_le_sub_right hab st.now)
  obtain ⟨t, hfo, hmt, hdt, _⟩ :=
    fireOffset_sep st.minDelay d _ hm hd hnn' hchain_os
  have hrun := enter_eq_ok st d p t none hfo
  obtain ⟨pre, post, hq, hins, hpre, hpost⟩ :=
    insertEvent_split ⟨st.now + t, p, d⟩ st.queue hsort
  exact ⟨_, _, pre, post, hrun, hq, hins, hpre, hpost⟩

/-- Witness for C9: `minDelay = 3`, `now = 0`, queue with events at
times `2` and `9`, request with delay `4`. -/
theorem enter_no_reorder_witness :
    ∃ st' ev pre post,
      enter ⟨3, 0, [⟨2, 0, 7⟩, ⟨9, 0, 7⟩]⟩ 4 1 none = .ok (st', ev) ∧
      ([⟨2, 0, 7⟩, ⟨9, 0, 7⟩] : List Event) = pre ++ post ∧
      st'.queue = pre ++ ev :: post ∧
      (∀ e ∈ pre, e.time ≤ ev.time) ∧ (∀ e ∈ post, ev.time ≤ e.time) :=
  enter_no_reorder ⟨3, 0, [⟨2, 0, 7⟩, ⟨9, 0, 7⟩]⟩ 4 1
    (by decide) (by decide) (by decide) (by decide)

/-- C3 (code bug): pushing back the head of a three-event queue hits
the recursive branch of `_push_event`, which evaluates the unbound
name `minDelay` and raises `NameError`; no cancel/reinsert operation is
performed and no gap is restored. -/
theorem pushEvent_nameError_len3 :
    pushEvent ⟨5, 0, [⟨0, 0, 10⟩, ⟨10, 0, 10⟩, ⟨20, 0, 10⟩]⟩ 0 5 =
      .error .nameError := by decide

/-- C4 (code bug): the drift push-back is not total.  On a two-event
queue, `_push_event` at the head raises `NameError` from the unbound
name `minDelay` in its recursive branch instead of completing. -/
theorem pushEvent_nameError_len2 :
    pushEvent ⟨5, 0, [⟨0, 0, 10⟩, ⟨10, 0, 10⟩]⟩ 0 3 = .error .nameError := by decide

/-- C5 counterexample: a periodic wrapper whose action raises
propagates the exception: the run produces an error, not a new state,
so the job was not re-inserted and the periodic chain stops. -/
theorem periodic_raise_drops_chain :
    runPeriodic ⟨5, 0, [⟨10, 0, 7⟩]⟩ 7 0 .raises = .error .actionRaised := by decide

/-- C5 amended: an exception of the wrapped action propagates out of
`periodic_action` uncaught — nothing reports it and the re-insertion
is skipped, ending the periodic chain; only when the action returns
normally does the wrapper re-enter the job, and then the re-entered
event carries the captured period. -/
theorem periodic_raise_propagates (st : SchedState) (period p : Int) :
    runPeriodic st period p .raises = .error .actionRaised ∧
      ∀ st', runPeriodic st period p .ok = .ok st' →
        ∃ ev, ev ∈ st'.queue ∧ ev.period = period := by
  refine ⟨rfl, ?_⟩
  intro st' h
  unfold runPeriodic at h
  cases he : enter st period p none with
  | error e =>
      rw [he] at h
      cases h
  | ok pr =>
      obtain ⟨st1, ev1⟩ := pr
      rw [he] at h
      simp only [Except.ok.injEq] at h
      subst h
      obtain ⟨hper, _, hq, _, _, _⟩ := enter_ok_inv st period p none st1 ev1 he
      exact ⟨ev1, by rw [hq]; exact insertEvent_mem ev1 st.queue, hper⟩

/-- Witness for the amended C5: a concrete raising run propagates the
error, and a concrete normal run re-inserts an event with the captured
period `3`. -/
theorem periodic_raise_propagates_witness :
    runPeriodic ⟨0, 0, []⟩ 3 0 .raises = .error .actionRaised ∧
      ∃ ev, ev ∈ (⟨0, 0, [⟨3, 0, 3⟩]⟩ : SchedState).queue ∧ ev.period = 3 :=
  ⟨(periodic_raise_propagates ⟨0, 0, []⟩ 3 0).1,
   (periodic_raise_propagates ⟨0, 0, []⟩ 3 0).2 ⟨0, 0, [⟨3, 0, 3⟩]⟩ (by decide)⟩

/-- C6 counterexample: `minDelay = 0`, one queued event at time `10`,
request with `delay = -1`.  `enter` does not reject the negative
delay: no error is raised and an event is inserted at time `0`, so
the queue changes. -/
theorem enter_negative_delay_inserts :
    enter ⟨0, 0, [⟨10, 0, 0⟩]⟩ (-1) 0 none =
      .ok (⟨0, 0, [⟨0, 0, -1⟩, ⟨10, 0, 0⟩]⟩, ⟨0, 0, -1⟩) := by decide

/-- C6 amended: `enter` performs no validation of `delay` and knows no
invalid-delay error.  A negative delay flows into the slot
computation, which either inserts an event (here at offset `0`) or,
when the scan finds no feasible pair, fails with the scan's
`IndexError` — never with a dedicated invalid-delay rejection. -/
theorem enter_no_delay_validation :
    enter ⟨0, 0, [⟨10, 0, 0⟩]⟩ (-1) 1 none =
      .ok (⟨0, 0, [⟨0, 1, -1⟩, ⟨10, 0, 0⟩]⟩, ⟨0, 1, -1⟩) ∧
    enter ⟨0, 0, []⟩ (-1) 0 none = .error .indexError :=
  ⟨by decide, by decide⟩

/-- C7 counterexample: with `minDelay = 5`, `delay = 0`, an empty
queue and no `lastExecution`, the event is scheduled at offset `5`
from now — not immediately at offset `0`. -/
theorem enter_zero_delay_empty_not_immediate :
    enter ⟨5, 0, []⟩ 0 1 none = .ok (⟨5, 0, [⟨5, 1, 0⟩]⟩, ⟨5, 1, 0⟩) ∧ (5:Int) ≠ 0 :=
  ⟨by decide, by decide⟩

/-- C7 amended: with `delay = 0`, an empty queue and no
`lastExecution`, the event is scheduled at offset `minDelay` from now
(the virtual leading `0` of the delay list enforces spacing from the
present); this is immediate exactly when `minDelay = 0`, the
constructor's default. -/
theorem enter_zero_delay_empty (m now p : Int) (hm : 0 ≤ m) :
    enter ⟨m, now, []⟩ 0 p none =
      .ok (⟨m, now, [⟨now + m, p, 0⟩]⟩, ⟨now + m, p, 0⟩) := by
  have hfo : fireOffset m 0 [] = .ok m := by
    have hscan : scanSlotAux m 0 (delayListOf m 0 []) 0 (delayListOf m 0 []) = .ok 0 := by
      show scanSlotAux m 0 (delayListOf m 0 []) 0 (0 :: (0 + 2 * 0 + 2 * m) :: []) = .ok 0
      simp only [scanSlotAux]
      rw [if_pos]
      constructor <;> linarith
    unfold fireOffset first_index
    rw [hscan]
    show Except.ok (max ((delayListOf m 0 []).getD 0 0 + m) 0) = Except.ok m
    have h0 : (delayListOf m 0 []).getD 0 0 = 0 := rfl
    rw [h0, zero_add, max_eq_left hm]
  exact enter_eq_ok ⟨m, now, []⟩ 0 p m none hfo

/-- Witness for the amended C7 at `minDelay = 5`, `now = 0`. -/
theorem enter_zero_delay_empty_witness :
    enter ⟨5, 0, []⟩ 0 2 none = .ok (⟨5, 0, [⟨5, 2, 0⟩]⟩, ⟨5, 2, 0⟩) :=
  enter_zero_delay_empty 5 0 2 (by decide)

/-- C8: for every `enter` call with `lastExecution` given, the delay
used for slot finding equals `max(0, delay + lastExecution - now)`;
in particular, when `lastExecution + delay < now` the effective delay
is `0`, so the next fire time is computed from `now` (adjusted by the
spacing rules), not from `lastExecution + delay`. -/
theorem effDelay_clamp (delay le now : Int) :
    effDelay delay (some le) now = max 0 (delay + le - now) ∧
      (le + delay < now → effDelay delay (some le) now = 0) := by
  constructor
  · show (if delay + le - now < 0 then (0:Int) else delay + le - now) =
      max 0 (delay + le - now)
    split_ifs with h
    · exact (max_eq_left (by omega)).symm
    · exact (max_eq_right (by omega)).symm
  · intro h
    show (if delay + le - now < 0 then (0:Int) else delay + le - now) = 0
    rw [if_pos (by omega)]

/-- Witness for C8 at `delay = 4`, `lastExecution = 3`, `now = 10`:
the job is overdue, so the effective delay is clamped to `0`. -/
theorem effDelay_clamp_witness : effDelay 4 (some 3) 10 = 0 :=
  (effDelay_clamp 4 3 10).2 (by decide)

/-- C10: the recurrence period of a periodic job is the originally
requested delay.  The wrapper is constructed before the
`lastExecution` adjustment, so the inserted event's captured period is
the unadjusted `delay` even though its fire offset was computed from
the clamped effective delay — and any further re-insertion made with
that captured period stores the same period again. -/
theorem periodic_period_unadjusted (st : SchedState) (delay p le : Int)
    (st' : SchedState) (ev : Event)
    (h : enter st delay p (some le) = .ok (st', ev)) :
    ev.period = delay ∧
      fireOffset st.minDelay (effDelay delay (some le) st.now)
        (st.queue.map (fun e => e.time - st.now)) = .ok (ev.time - st.now) ∧
      ∀ st'' ev', enter st' ev.period p none = .ok (st'', ev') → ev'.period = delay := by
  obtain ⟨hper, _, _, _, _, hfo⟩ := enter_ok_inv st delay p (some le) st' ev h
  refine ⟨hper, hfo, ?_⟩
  intro st'' ev' h'
  obtain ⟨hper', _, _, _, _, _⟩ := enter_ok_inv st' ev.period p none st'' ev' h'
  rw [hper', hper]

/-- Witness for C10: `now = 10`, `delay = 4`, `lastExecution = 3`; the
effective first delay is clamped to `0`, yet the stored period is `4`. -/
theorem periodic_period_unadjusted_witness : (⟨10, 0, 4⟩ : Event).period = 4 :=
  (periodic_period_unadjusted ⟨0, 10, []⟩ 4 0 3 ⟨0, 10, [⟨10, 0, 4⟩]⟩ ⟨10, 0, 4⟩
    (by decide)).1
